import Mathlib

/-!
# Verification of the svgedit fork editor glue code

This file gives a shallow embedding, in Lean 4, of the parts of the
repository relevant to its specification:

* `src/src/editor/svgedit.js` — editor event wiring: `loadSvgString`,
  `updateLeftPanel` and the tool click handlers, `clickUndo`/`clickRedo`,
  the ruler interval computation (`rIntervals` and the `multi` selection
  loop of `updateRulers`), the `Actions.setAll` keyboard-shortcut
  registration and its keydown dispatcher, and the `extAdded`
  extension-added handler.
* `src/unnamed/part_000` — the metadata helpers `replaceSvgMetadata`,
  `extractAndEnhanceMetadata`, `compareAndFillSvgDom`, `customInitLayer`.
* `src/unnamed/part_001` — the `ext-panning` extension handlers.

DOM documents are embedded as explicit data (attribute lists, element
sequences in document order); DOM mutation becomes explicit state passing;
side effects (alerts, canvas calls, panel refreshes) become explicit
command traces.  JavaScript numbers in the ruler computation are embedded
as rationals; the decimal rendering of `${index}` template literals is
`Nat.repr`.
-/

set_option autoImplicit false

namespace SvgEditSpec

/-! ## Decimal rendering (`${index}` template literals)

JavaScript renders the metadata index with a decimal template literal.
The Lean counterpart is `Nat.repr`.  The round-trip property of
`extractAndEnhanceMetadata`/`replaceSvgMetadata` needs that distinct
indices render to distinct strings, which we prove here from the core
definitions `Nat.toDigitsCore`/`Nat.digitChar`. -/

theorem toDigitsCore_append (f : ℕ) : ∀ (n : ℕ) (ds : List Char),
    Nat.toDigitsCore 10 f n ds = Nat.toDigitsCore 10 f n [] ++ ds := by
  induction f with
  | zero => intro n ds; simp [Nat.toDigitsCore]
  | succ f ih =>
    intro n ds
    simp only [Nat.toDigitsCore]
    by_cases h : n / 10 = 0
    · simp [h]
    · simp only [h, if_false]
      rw [ih (n / 10) (Nat.digitChar (n % 10) :: ds),
        ih (n / 10) [Nat.digitChar (n % 10)]]
      simp

theorem toDigitsCore_fuel (f₁ : ℕ) : ∀ (f₂ n : ℕ) (ds : List Char),
    n < f₁ → n < f₂ →
    Nat.toDigitsCore 10 f₁ n ds = Nat.toDigitsCore 10 f₂ n ds := by
  induction f₁ with
  | zero => intro f₂ n ds h₁ _; omega
  | succ f₁ ih =>
    intro f₂ n ds h₁ h₂
    match f₂, h₂ with
    | f₂ + 1, h₂ =>
      simp only [Nat.toDigitsCore]
      by_cases h : n / 10 = 0
      · simp [h]
      · simp only [h, if_false]
        have hn : 10 ≤ n := by omega
        have hlt : n / 10 < n := Nat.div_lt_self (by omega) (by omega)
        exact ih f₂ (n / 10) _ (by omega) (by omega)

/-- The decimal digit list of a natural number, as core's `Nat.toDigits`. -/
def decDigits (n : ℕ) : List Char := Nat.toDigits 10 n

theorem decDigits_eq (n : ℕ) :
    decDigits n = if n < 10 then [Nat.digitChar n]
      else decDigits (n / 10) ++ [Nat.digitChar (n % 10)] := by
  have step : Nat.toDigitsCore 10 (n + 1) n [] =
      if n / 10 = 0 then [Nat.digitChar (n % 10)]
      else Nat.toDigitsCore 10 n (n / 10) [Nat.digitChar (n % 10)] := by
    simp only [Nat.toDigitsCore]
  show Nat.toDigitsCore 10 (n + 1) n [] = _
  rw [step]
  by_cases h : n / 10 = 0
  · have hlt : n < 10 := by omega
    simp [h, hlt, Nat.mod_eq_of_lt hlt]
  · have hge : ¬ n < 10 := by omega
    have hdl : n / 10 < n := Nat.div_lt_self (by omega) (by omega)
    simp only [h, if_false, hge]
    rw [toDigitsCore_fuel n (n / 10 + 1) (n / 10) _ hdl (Nat.lt_succ_self _),
      toDigitsCore_append]
    rfl

theorem decDigits_ne_nil (n : ℕ) : decDigits n ≠ [] := by
  rw [decDigits_eq]
  by_cases h : n < 10 <;> simp [h]

theorem digitChar_inj_lt (a b : ℕ) (ha : a < 10) (hb : b < 10)
    (h : Nat.digitChar a = Nat.digitChar b) : a = b := by
  interval_cases a <;> interval_cases b <;> revert h <;> decide

theorem decDigits_inj (m : ℕ) : ∀ n : ℕ, decDigits m = decDigits n → m = n := by
  induction m using Nat.strong_induction_on with
  | _ m ih =>
    intro n h
    rw [decDigits_eq m, decDigits_eq n] at h
    by_cases hm : m < 10 <;> by_cases hn : n < 10
    · simp only [hm, hn, if_true, List.cons.injEq] at h
      exact digitChar_inj_lt m n hm hn h.1
    · simp only [hm, hn, if_true, if_false] at h
      obtain ⟨c, cs, hcons⟩ := List.exists_cons_of_ne_nil (decDigits_ne_nil (n / 10))
      rw [hcons] at h
      simp at h
    · simp only [hm, hn, if_true, if_false] at h
      obtain ⟨c, cs, hcons⟩ := List.exists_cons_of_ne_nil (decDigits_ne_nil (m / 10))
      rw [hcons] at h
      simp at h
    · simp only [hm, hn, if_false] at h
      have hlen := congrArg List.length h
      simp at hlen
      obtain ⟨h₁, h₂⟩ := List.append_inj h (by omega)
      have hdiv : m / 10 = n / 10 :=
        ih (m / 10) (Nat.div_lt_self (by omega) (by omega)) (n / 10) h₁
      have hmod : m % 10 = n % 10 := by
        simp only [List.cons.injEq] at h₂
        exact digitChar_inj_lt _ _ (Nat.mod_lt _ (by omega)) (Nat.mod_lt _ (by omega)) h₂.1
      omega

theorem natRepr_inj (m n : ℕ) (h : Nat.repr m = Nat.repr n) : m = n :=
  decDigits_inj m n (congrArg String.data h)

/-! ## DOM attribute lists

DOM elements carry named attributes.  `getAttr` embeds
`Element#getAttribute` (first attribute of that name, `none` for the DOM's
`null`), and `setAttr` embeds `Element#setAttribute` (overwrite in place
when present, append when absent). -/

/-- An element's attribute list, in document order. -/
abbrev Attrs := List (String × String)

/-- `element.getAttribute(name)`: value of the first attribute named
`name`, or `none` (DOM `null`). -/
def getAttr : Attrs → String → Option String
  | [], _ => none
  | (a, v) :: t, name => if a = name then some v else getAttr t name

/-- `element.setAttribute(name, value)`: overwrite the first attribute
named `name` in place, or append a new attribute at the end. -/
def setAttr : Attrs → String → String → Attrs
  | [], name, value => [(name, value)]
  | (a, w) :: t, name, value =>
    if a = name then (a, value) :: t else (a, w) :: setAttr t name value

/-- `element.hasAttribute(name)`. -/
def hasAttr (attrs : Attrs) (name : String) : Bool :=
  (getAttr attrs name).isSome

theorem getAttr_setAttr_self (attrs : Attrs) (name value : String) :
    getAttr (setAttr attrs name value) name = some value := by
  induction attrs with
  | nil => simp [getAttr, setAttr]
  | cons hd t ih =>
    obtain ⟨a, w⟩ := hd
    by_cases h : a = name <;> simp [getAttr, setAttr, h, ih]

theorem getAttr_append_of_some (l₁ l₂ : Attrs) (name v : String)
    (h : getAttr l₁ name = some v) : getAttr (l₁ ++ l₂) name = some v := by
  induction l₁ with
  | nil => simp [getAttr] at h
  | cons hd t ih =>
    obtain ⟨a, w⟩ := hd
    by_cases ha : a = name <;> simp_all [getAttr]

/-! ## `src/unnamed/part_000`: metadata extraction and restoration

The metadata helpers parse an SVG string with `DOMParser`, walk the
resulting document, and serialize it back with `XMLSerializer`.  We embed
the parsed document as the sequence, in document order, of its `metadata`
elements (attribute list plus `innerHTML` content — SVG `metadata` holds
foreign content that the code only ever touches through the `innerHTML`
string) interleaved with the remaining markup, which the code never
inspects and which we therefore keep as opaque raw segments.  The
`DOMParser`/`XMLSerializer` round trip on well-formed input is embedded as
the identity between a document value and its `serializeSVG` rendering. -/

/-- One item of the parsed SVG document, in document order: a `metadata`
element (attributes and `innerHTML` content) or an opaque non-metadata
markup segment. -/
inductive SvgItem where
  | meta (attrs : Attrs) (content : String)
  | other (raw : String)
deriving DecidableEq

/-- A parsed SVG document: its items in document order. -/
abbrev SvgDoc := List SvgItem

/-- `new XMLSerializer().serializeToString(...)` on one item. -/
def serializeItem : SvgItem → String
  | .meta attrs content =>
    "<metadata" ++ String.join (attrs.map fun p => " " ++ p.1 ++ "=\x22" ++ p.2 ++ "\x22")
      ++ ">" ++ content ++ "</metadata>"
  | .other raw => raw

/-- `new XMLSerializer().serializeToString(svgDoc)`. -/
def serializeSVG (d : SvgDoc) : String :=
  String.join (d.map serializeItem)

/-- The id `` `my-metadata-${index}` `` assigned to the metadata element at
`index`. -/
def mkMetaId (index : ℕ) : String := "my-metadata-" ++ Nat.repr index

theorem mkMetaId_inj (i j : ℕ) (h : mkMetaId i = mkMetaId j) : i = j := by
  apply natRepr_inj
  have hd := congrArg String.data h
  simp only [mkMetaId, String.data_append] at hd
  exact String.ext (List.append_cancel_left hd)

/-- The `metadataElements.forEach` loop of `extractAndEnhanceMetadata`,
threading the running `index`: each `metadata` element gets
`setAttribute('id', mkMetaId index)` and contributes
`{id, content: innerHTML.trim()}` to `metadataArray`. -/
def enhanceItems : ℕ → SvgDoc → SvgDoc × List (String × String)
  | _, [] => ([], [])
  | i, .other raw :: t =>
    let p := enhanceItems i t
    (.other raw :: p.1, p.2)
  | i, .meta attrs content :: t =>
    let p := enhanceItems (i + 1) t
    (.meta (setAttr attrs "id" (mkMetaId i)) content :: p.1,
      (mkMetaId i, content.trim) :: p.2)

/-- `extractAndEnhanceMetadata(svgString)`: the returned
`{enhancedSvgString, metadataArray}` (the string argument is the
serialization of the parsed document `d`). -/
def extractAndEnhanceMetadata (d : SvgDoc) : String × List (String × String) :=
  let p := enhanceItems 0 d
  (serializeSVG p.1, p.2)

/-- The enhanced document itself (the parse of `enhancedSvgString`). -/
def enhancedDoc (d : SvgDoc) : SvgDoc := (enhanceItems 0 d).1

/-- `svgDoc.querySelector('metadata[id="..."]').innerHTML = content`: set
the content of the first `metadata` element whose `id` attribute equals
`idv`; when no such element exists the document is left unchanged. -/
def setMetaById : SvgDoc → String → String → SvgDoc
  | [], _, _ => []
  | .meta attrs c :: t, idv, content =>
    if getAttr attrs "id" = some idv then .meta attrs content :: t
    else .meta attrs c :: setMetaById t idv content
  | .other raw :: t, idv, content => .other raw :: setMetaById t idv content

/-- The `metadataArray.forEach` loop of `replaceSvgMetadata`. -/
def replaceDoc (d : SvgDoc) (metadataArray : List (String × String)) : SvgDoc :=
  metadataArray.foldl (fun acc e => setMetaById acc e.1 e.2) d

/-- `replaceSvgMetadata(svgString, metadataArray)` (the string argument is
the serialization of the parsed document `d`). -/
def replaceSvgMetadata (d : SvgDoc) (metadataArray : List (String × String)) : String :=
  serializeSVG (replaceDoc d metadataArray)

/-- The `innerHTML` contents of the document's `metadata` elements, in
document order. -/
def metaContents : SvgDoc → List String
  | [] => []
  | .meta _ c :: t => c :: metaContents t
  | .other _ :: t => metaContents t

/-- The `id` attributes of the document's `metadata` elements, in document
order. -/
def metaIdsOf : SvgDoc → List (Option String)
  | [] => []
  | .meta attrs _ :: t => getAttr attrs "id" :: metaIdsOf t
  | .other _ :: t => metaIdsOf t

/-- Apply `f` to the content of every `metadata` element, leaving ids,
other attributes and all non-metadata markup unchanged. -/
def mapMetaContent (f : String → String) : SvgDoc → SvgDoc
  | [] => []
  | .meta attrs c :: t => .meta attrs (f c) :: mapMetaContent f t
  | .other raw :: t => .other raw :: mapMetaContent f t

/-- The expected `metadataArray` produced from contents `cs` starting at
`index`. -/
def entriesFrom : ℕ → List String → List (String × String)
  | _, [] => []
  | i, c :: t => (mkMetaId i, c.trim) :: entriesFrom (i + 1) t

theorem enhanceItems_entries (d : SvgDoc) : ∀ i : ℕ,
    (enhanceItems i d).2 = entriesFrom i (metaContents d) := by
  induction d with
  | nil => intro i; rfl
  | cons hd t ih =>
    intro i
    cases hd with
    | meta attrs c => simp [enhanceItems, metaContents, entriesFrom, ih]
    | other raw => simp [enhanceItems, metaContents, ih]

theorem metaContents_enhanceItems (d : SvgDoc) : ∀ i : ℕ,
    metaContents (enhanceItems i d).1 = metaContents d := by
  induction d with
  | nil => intro i; rfl
  | cons hd t ih =>
    intro i
    cases hd with
    | meta attrs c => simp [enhanceItems, metaContents, ih]
    | other raw => simp [enhanceItems, metaContents, ih]

theorem metaIdsOf_enhanceItems (d : SvgDoc) : ∀ i : ℕ,
    metaIdsOf (enhanceItems i d).1 =
      (List.range' i (metaContents d).length).map (fun k => some (mkMetaId k)) := by
  induction d with
  | nil => intro i; rfl
  | cons hd t ih =>
    intro i
    cases hd with
    | meta attrs c =>
      simp [enhanceItems, metaIdsOf, metaContents, List.range'_succ, ih,
        getAttr_setAttr_self]
    | other raw => simp [enhanceItems, metaIdsOf, metaContents, ih]

theorem entriesFrom_id_ge (cs : List String) : ∀ (i : ℕ) (e : String × String),
    e ∈ entriesFrom i cs → ∃ k, i ≤ k ∧ e.1 = mkMetaId k := by
  induction cs with
  | nil => intro i e h; simp [entriesFrom] at h
  | cons c t ih =>
    intro i e h
    simp only [entriesFrom, List.mem_cons] at h
    rcases h with h | h
    · exact ⟨i, le_refl i, by rw [h]⟩
    · obtain ⟨k, hk, he⟩ := ih (i + 1) e h
      exact ⟨k, by omega, he⟩

theorem replaceDoc_cons_other (arr : List (String × String)) :
    ∀ (raw : String) (t : SvgDoc),
    replaceDoc (.other raw :: t) arr = .other raw :: replaceDoc t arr := by
  induction arr with
  | nil => intro raw t; rfl
  | cons e es ih =>
    intro raw t
    simp only [replaceDoc, List.foldl_cons, setMetaById]
    exact ih raw (setMetaById t e.1 e.2)

theorem replaceDoc_cons_meta_skip (arr : List (String × String)) :
    ∀ (attrs : Attrs) (c : String) (t : SvgDoc) (s : String),
    getAttr attrs "id" = some s → (∀ e ∈ arr, e.1 ≠ s) →
    replaceDoc (.meta attrs c :: t) arr = .meta attrs c :: replaceDoc t arr := by
  induction arr with
  | nil => intro attrs c t s _ _; rfl
  | cons e es ih =>
    intro attrs c t s hid hne
    simp only [replaceDoc, List.foldl_cons, setMetaById]
    have h1 : ¬ (getAttr attrs "id" = some e.1) := by
      rw [hid]
      intro hc
      injection hc with h
      exact hne e (List.mem_cons_self e es) h.symm
    rw [if_neg h1]
    exact ih attrs c (setMetaById t e.1 e.2) s hid
      (fun e' he' => hne e' (List.mem_cons_of_mem e he'))

theorem replaceDoc_enhance (d : SvgDoc) : ∀ i : ℕ,
    replaceDoc (enhanceItems i d).1 (enhanceItems i d).2 =
      mapMetaContent String.trim (enhanceItems i d).1 := by
  induction d with
  | nil => intro i; rfl
  | cons hd t ih =>
    intro i
    cases hd with
    | other raw =>
      simp only [enhanceItems, replaceDoc_cons_other, mapMetaContent]
      exact congrArg _ (ih i)
    | meta attrs c =>
      simp only [enhanceItems, mapMetaContent]
      have hid : getAttr (setAttr attrs "id" (mkMetaId i)) "id" = some (mkMetaId i) :=
        getAttr_setAttr_self attrs "id" (mkMetaId i)
      simp only [replaceDoc, List.foldl_cons, setMetaById]
      rw [if_pos hid]
      have hne : ∀ e ∈ (enhanceItems (i + 1) t).2, e.1 ≠ mkMetaId i := by
        intro e he
        rw [enhanceItems_entries t (i + 1)] at he
        obtain ⟨k, hk, he1⟩ := entriesFrom_id_ge (metaContents t) (i + 1) e he
        rw [he1]
        intro hc
        have := mkMetaId_inj k i hc
        omega
      have := replaceDoc_cons_meta_skip (enhanceItems (i + 1) t).2
        (setAttr attrs "id" (mkMetaId i)) c.trim (enhanceItems (i + 1) t).1
        (mkMetaId i) hid hne
      simp only [replaceDoc] at this
      rw [this]
      exact congrArg _ (ih (i + 1))

theorem mapMetaContent_id_of_fixed (f : String → String) (d : SvgDoc)
    (h : ∀ c ∈ metaContents d, f c = c) : mapMetaContent f d = d := by
  induction d with
  | nil => rfl
  | cons hd t ih =>
    cases hd with
    | meta attrs c =>
      have hc : f c = c := h c (by simp [metaContents])
      have ht : ∀ c' ∈ metaContents t, f c' = c' :=
        fun c' hc' => h c' (by simp [metaContents, hc'])
      simp [mapMetaContent, hc, ih ht]
    | other raw =>
      have ht : ∀ c' ∈ metaContents t, f c' = c' :=
        fun c' hc' => h c' (by simp [metaContents, hc'])
      simp [mapMetaContent, ih ht]

/-- **C8.** Metadata extraction and replacement form a round trip: for
every (well-formed, already parsed) SVG document, `extractAndEnhanceMetadata`
assigns each `metadata` element the id `my-metadata-<index>` in document
order and records for each the whitespace-trimmed content under that id;
applying `replaceSvgMetadata` to the returned enhanced document with the
returned array yields the enhanced document with every metadata element's
content equal to its trimmed original content and nothing else modified;
in particular, when every metadata element's content is already trimmed,
the round trip returns the enhanced string unchanged. -/
theorem c8_metadata_roundtrip (d : SvgDoc) :
    (extractAndEnhanceMetadata d).2 = entriesFrom 0 (metaContents d)
    ∧ metaIdsOf (enhancedDoc d) =
        (List.range' 0 (metaContents d).length).map (fun k => some (mkMetaId k))
    ∧ replaceDoc (enhancedDoc d) (extractAndEnhanceMetadata d).2 =
        mapMetaContent String.trim (enhancedDoc d)
    ∧ ((∀ c ∈ metaContents d, c.trim = c) →
        replaceSvgMetadata (enhancedDoc d) (extractAndEnhanceMetadata d).2 =
          (extractAndEnhanceMetadata d).1) := by
  refine ⟨enhanceItems_entries d 0, metaIdsOf_enhanceItems d 0, replaceDoc_enhance d 0, ?_⟩
  intro h
  show serializeSVG (replaceDoc (enhancedDoc d) (enhanceItems 0 d).2) = _
  have h3 : replaceDoc (enhancedDoc d) (enhanceItems 0 d).2 =
      mapMetaContent String.trim (enhancedDoc d) := replaceDoc_enhance d 0
  rw [h3, mapMetaContent_id_of_fixed String.trim (enhancedDoc d)
    (by rw [show metaContents (enhancedDoc d) = metaContents d from
        metaContents_enhanceItems d 0]; exact h)]
  rfl

/-- Witness for `c8_metadata_roundtrip` at a concrete document with no
metadata element (so the trimmed-contents hypothesis holds trivially). -/
theorem c8_metadata_roundtrip_witness :
    replaceSvgMetadata (enhancedDoc [SvgItem.other "<svg/>"])
        (extractAndEnhanceMetadata [SvgItem.other "<svg/>"]).2 =
      (extractAndEnhanceMetadata [SvgItem.other "<svg/>"]).1 :=
  (c8_metadata_roundtrip [SvgItem.other "<svg/>"]).2.2.2
    (by intro c hc; simp [metaContents] at hc)

/-! ## `src/unnamed/part_000`: `compareAndFillSvgDom`

`compareAndFillSvgDom(svgDom1, svgDom2)` walks
`svgDom1.getElementsByTagName('*')` (all elements in document order),
looks each element's `id` attribute up in `svgDom2` via `getElementById`,
and copies every attribute missing on the match.  We embed each document
as its element sequence in document order; `getElementById` returns the
index of the first element whose `id` attribute equals the argument.

One JavaScript detail matters: for an element without an `id` attribute,
`element1.getAttribute('id')` is `null`, and passing `null` to
`getElementById` — whose parameter is a non-nullable WebIDL `DOMString` —
stringifies it to `"null"`, so such elements match an element of
`svgDom2` whose id is the literal string `"null"`.  `coerceIdArg` embeds
that conversion. -/

/-- A DOM element: tag name and attribute list. -/
structure Elem where
  tag : String
  attrs : Attrs
deriving DecidableEq

/-- A parsed document as its elements in document order
(`getElementsByTagName('*')`). -/
abbrev ElemDoc := List Elem

/-- WebIDL `DOMString` conversion of `element.getAttribute('id')` at the
`getElementById` call: `null` stringifies to `"null"`. -/
def coerceIdArg : Option String → String
  | some s => s
  | none => "null"

/-- `doc.getElementById(s)`: index of the first element in document order
whose `id` attribute equals `s`, if any. -/
def findById : ElemDoc → String → Option ℕ
  | [], _ => none
  | e :: t, s =>
    if getAttr e.attrs "id" = some s then some 0 else (findById t s).map (· + 1)

/-- The inner attribute loop: for each attribute of `element1` (in order),
`if (!element2.hasAttribute(name)) element2.setAttribute(name, value)`;
`setAttribute` of an absent attribute appends it. -/
def fillAttrs : Attrs → Attrs → Attrs
  | dst, [] => dst
  | dst, p :: ps => fillAttrs (if hasAttr dst p.1 then dst else dst ++ [p]) ps

/-- Replace the element at index `j` (leaving the document unchanged when
`j` is out of range). -/
def modifyAt : ℕ → (Elem → Elem) → ElemDoc → ElemDoc
  | _, _, [] => []
  | 0, f, e :: t => f e :: t
  | n + 1, f, e :: t => e :: modifyAt n f t

/-- One iteration of the outer loop of `compareAndFillSvgDom`: look
`element1`'s (coerced) id up in the current `svgDom2` and, when found,
fill the matched element's missing attributes. -/
def fillStep (acc : ElemDoc) (e1 : Elem) : ElemDoc :=
  match findById acc (coerceIdArg (getAttr e1.attrs "id")) with
  | none => acc
  | some j => modifyAt j (fun e2 => ⟨e2.tag, fillAttrs e2.attrs e1.attrs⟩) acc

/-- `compareAndFillSvgDom(svgDom1, svgDom2)`: the pair of the two
documents after the call (the code mutates only elements of `svgDom2`,
which it returns). -/
def compareAndFillSvgDom (svgDom1 svgDom2 : ElemDoc) : ElemDoc × ElemDoc :=
  (svgDom1, svgDom1.foldl fillStep svgDom2)

theorem getAttr_append_none (l₁ l₂ : Attrs) (name : String)
    (h : getAttr l₁ name = none) : getAttr (l₁ ++ l₂) name = getAttr l₂ name := by
  induction l₁ with
  | nil => rfl
  | cons hd t ih =>
    obtain ⟨a, w⟩ := hd
    by_cases ha : a = name <;> simp_all [getAttr]

theorem getAttr_fillAttrs_of_some (src : Attrs) : ∀ (dst : Attrs) (name v : String),
    getAttr dst name = some v → getAttr (fillAttrs dst src) name = some v := by
  induction src with
  | nil => intro dst name v h; exact h
  | cons p ps ih =>
    intro dst name v h
    simp only [fillAttrs]
    apply ih
    by_cases hp : hasAttr dst p.1
    · simpa [hp] using h
    · simp only [hp, if_false]
      exact getAttr_append_of_some dst [p] name v h

theorem hasAttr_fillAttrs_mono (src dst : Attrs) (name : String)
    (h : hasAttr dst name) : hasAttr (fillAttrs dst src) name := by
  simp only [hasAttr, Option.isSome_iff_exists] at h ⊢
  obtain ⟨v, hv⟩ := h
  exact ⟨v, getAttr_fillAttrs_of_some src dst name v hv⟩

theorem hasAttr_fillAttrs_of_src (src : Attrs) : ∀ (dst : Attrs) (name v : String),
    getAttr src name = some v → hasAttr (fillAttrs dst src) name := by
  induction src with
  | nil => intro dst name v h; simp [getAttr] at h
  | cons p ps ih =>
    intro dst name v h
    obtain ⟨a, w⟩ := p
    simp only [fillAttrs]
    by_cases ha : a = name
    · subst ha
      apply hasAttr_fillAttrs_mono
      by_cases hp : hasAttr dst a
      · rw [if_pos hp]; exact hp
      · rw [if_neg hp]
        have hnone : getAttr dst a = none := by
          simp only [hasAttr] at hp
          exact Option.not_isSome_iff_eq_none.mp hp
        simp only [hasAttr]
        rw [getAttr_append_none dst [(a, w)] a hnone]
        simp [getAttr]
    · simp only [getAttr, ha, if_false] at h
      exact ih _ name v h

theorem getAttr_fillAttrs_cases (src : Attrs) : ∀ (dst : Attrs) (name v : String),
    getAttr (fillAttrs dst src) name = some v →
    getAttr dst name = some v ∨ (getAttr dst name = none ∧ getAttr src name = some v) := by
  induction src with
  | nil => intro dst name v h; exact Or.inl h
  | cons p ps ih =>
    intro dst name v h
    obtain ⟨a, w⟩ := p
    simp only [fillAttrs] at h
    by_cases hp : hasAttr dst a
    · rw [if_pos hp] at h
      rcases ih _ name v h with h' | ⟨hnone, hps⟩
      · exact Or.inl h'
      · have ha : a ≠ name := by
          intro hc
          subst hc
          simp [hasAttr, hnone] at hp
        exact Or.inr ⟨hnone, by simp [getAttr, ha, hps]⟩
    · rw [if_neg hp] at h
      rcases ih _ name v h with h' | ⟨hnone, hps⟩
      · cases hget : getAttr dst name with
        | some u =>
          have hu := getAttr_append_of_some dst [(a, w)] name u hget
          have huv : some u = some v := by rw [← hu, h']
          exact Or.inl huv
        | none =>
          rw [getAttr_append_none dst [(a, w)] name hget] at h'
          by_cases ha : a = name
          · subst ha
            simp only [getAttr, if_true, eq_self_iff_true] at h'
            exact Or.inr ⟨rfl, by simp [getAttr, h']⟩
          · simp [getAttr, ha] at h'
      · have hdst : getAttr dst name = none := by
          cases hget : getAttr dst name with
          | none => rfl
          | some u =>
            rw [getAttr_append_of_some dst [(a, w)] name u hget] at hnone
            exact Option.noConfusion hnone
        have ha : a ≠ name := by
          intro hc
          subst hc
          rw [getAttr_append_none dst [(a, w)] a hdst] at hnone
          simp [getAttr] at hnone
        exact Or.inr ⟨hdst, by simp [getAttr, ha, hps]⟩

/-- Two elements with the same `id` attribute. -/
def SameId (x y : Elem) : Prop := getAttr x.attrs "id" = getAttr y.attrs "id"

/-- Two documents whose elements have pairwise the same `id` attributes. -/
def SameIds (a b : ElemDoc) : Prop := List.Forall₂ SameId a b

/-- `cur` keeps every attribute of `orig` with its value. -/
def KeepAttrs (orig cur : Elem) : Prop :=
  ∀ name v, getAttr orig.attrs name = some v → getAttr cur.attrs name = some v

theorem sameIds_refl (a : ElemDoc) : SameIds a a :=
  List.forall₂_same.mpr (fun _ _ => rfl)

theorem sameIds_trans {a b c : ElemDoc} (h₁ : SameIds a b) (h₂ : SameIds b c) :
    SameIds a c := by
  induction h₁ generalizing c with
  | nil => cases h₂; exact List.Forall₂.nil
  | cons hxy htail ih =>
    cases h₂ with
    | cons hyz htail₂ => exact List.Forall₂.cons (hxy.trans hyz) (ih htail₂)

theorem findById_congr {a b : ElemDoc} (h : SameIds a b) (s : String) :
    findById a s = findById b s := by
  induction h with
  | nil => rfl
  | cons hxy _ ih =>
    simp only [SameId] at hxy
    simp only [findById, hxy, ih]

theorem modifyAt_get_self (a : ElemDoc) : ∀ (j : ℕ) (f : Elem → Elem),
    (modifyAt j f a)[j]? = a[j]?.map f := by
  induction a with
  | nil => intro j f; cases j <;> simp [modifyAt]
  | cons e t ih =>
    intro j f
    cases j with
    | zero => simp [modifyAt]
    | succ j => simpa [modifyAt] using ih j f

theorem modifyAt_get_ne (a : ElemDoc) : ∀ (j k : ℕ) (f : Elem → Elem), k ≠ j →
    (modifyAt j f a)[k]? = a[k]? := by
  induction a with
  | nil => intro j k f _; cases j <;> simp [modifyAt]
  | cons e t ih =>
    intro j k f hk
    cases j with
    | zero =>
      cases k with
      | zero => exact absurd rfl hk
      | succ k => simp [modifyAt]
    | succ j =>
      cases k with
      | zero => simp [modifyAt]
      | succ k => simpa [modifyAt] using ih j k f (by omega)

theorem findById_get (a : ElemDoc) : ∀ (s : String) (j : ℕ), findById a s = some j →
    ∃ e, a[j]? = some e ∧ getAttr e.attrs "id" = some s := by
  induction a with
  | nil => intro s j h; simp [findById] at h
  | cons e t ih =>
    intro s j h
    simp only [findById] at h
    by_cases he : getAttr e.attrs "id" = some s
    · rw [if_pos he] at h
      injection h with h
      subst h
      exact ⟨e, by simp, he⟩
    · rw [if_neg he] at h
      obtain ⟨j', hj', rfl⟩ := Option.map_eq_some'.mp h
      obtain ⟨e', he', hid⟩ := ih s j' hj'
      exact ⟨e', by simpa using he', hid⟩

theorem sameIds_modifyAt (a : ElemDoc) : ∀ (j : ℕ) (f : Elem → Elem),
    (∀ e, a[j]? = some e → SameId (f e) e) → SameIds (modifyAt j f a) a := by
  induction a with
  | nil => intro j f _; cases j <;> exact List.Forall₂.nil
  | cons e t ih =>
    intro j f h
    cases j with
    | zero => exact List.Forall₂.cons (h e (by simp)) (sameIds_refl t)
    | succ j =>
      exact List.Forall₂.cons rfl (ih j f (fun e' he' => h e' (by simpa using he')))

theorem fillStep_sameIds (acc : ElemDoc) (e1 : Elem) :
    SameIds (fillStep acc e1) acc := by
  unfold fillStep
  cases hf : findById acc (coerceIdArg (getAttr e1.attrs "id")) with
  | none => exact sameIds_refl acc
  | some j =>
    apply sameIds_modifyAt
    intro e he
    obtain ⟨e', he', hid⟩ := findById_get acc _ j hf
    rw [he] at he'
    injection he' with he'
    subst he'
    show getAttr (fillAttrs e.attrs e1.attrs) "id" = getAttr e.attrs "id"
    rw [hid, getAttr_fillAttrs_of_some e1.attrs e.attrs "id" _ hid]

theorem foldl_fillStep_sameIds (l : List Elem) : ∀ (acc d2 : ElemDoc),
    SameIds acc d2 → SameIds (List.foldl fillStep acc l) d2 := by
  induction l with
  | nil => intro acc d2 h; exact h
  | cons e1 l' ih =>
    intro acc d2 h
    exact ih (fillStep acc e1) d2 (sameIds_trans (fillStep_sameIds acc e1) h)

theorem forall2_keep_modifyAt (f : Elem → Elem)
    (hf : ∀ x y, KeepAttrs x y → KeepAttrs x (f y)) {d2 acc : ElemDoc}
    (h : List.Forall₂ KeepAttrs d2 acc) :
    ∀ j : ℕ, List.Forall₂ KeepAttrs d2 (modifyAt j f acc) := by
  induction h with
  | nil => intro j; cases j <;> exact List.Forall₂.nil
  | cons hxy htail ih =>
    intro j
    cases j with
    | zero => exact List.Forall₂.cons (hf _ _ hxy) htail
    | succ j => exact List.Forall₂.cons hxy (ih j)

theorem fillStep_keeps {d2 acc : ElemDoc} (e1 : Elem)
    (h : List.Forall₂ KeepAttrs d2 acc) :
    List.Forall₂ KeepAttrs d2 (fillStep acc e1) := by
  unfold fillStep
  cases hf : findById acc (coerceIdArg (getAttr e1.attrs "id")) with
  | none => exact h
  | some j =>
    refine forall2_keep_modifyAt _ ?_ h j
    intro x y hxy
    intro name v hv
    exact getAttr_fillAttrs_of_some e1.attrs y.attrs name v (hxy name v hv)

theorem foldl_fillStep_keeps (l : List Elem) : ∀ (acc d2 : ElemDoc),
    List.Forall₂ KeepAttrs d2 acc →
    List.Forall₂ KeepAttrs d2 (List.foldl fillStep acc l) := by
  induction l with
  | nil => intro acc d2 h; exact h
  | cons e1 l' ih =>
    intro acc d2 h
    exact ih (fillStep acc e1) d2 (fillStep_keeps e1 h)

theorem foldl_fillStep_untouched (d2 : ElemDoc) (l : List Elem) : ∀ (acc : ElemDoc),
    SameIds acc d2 → ∀ j : ℕ,
    (∀ e1 ∈ l, findById d2 (coerceIdArg (getAttr e1.attrs "id")) ≠ some j) →
    acc[j]? = d2[j]? → (List.foldl fillStep acc l)[j]? = d2[j]? := by
  induction l with
  | nil => intro acc _ j _ hj; exact hj
  | cons e1 l' ih =>
    intro acc hsame j hne hj
    have hsame' : SameIds (fillStep acc e1) d2 :=
      sameIds_trans (fillStep_sameIds acc e1) hsame
    refine ih (fillStep acc e1) hsame' j
      (fun e he => hne e (List.mem_cons_of_mem e1 he)) ?_
    unfold fillStep
    cases hf : findById acc (coerceIdArg (getAttr e1.attrs "id")) with
    | none => exact hj
    | some j' =>
      have hj' : j' ≠ j := by
        intro hc
        subst hc
        exact hne e1 (List.mem_cons_self e1 l')
          (by rw [← findById_congr hsame]; exact hf)
      rw [modifyAt_get_ne acc j' j _ (fun hc => hj' hc.symm)]
      exact hj

theorem foldl_fillStep_presence (l : List Elem) : ∀ (acc : ElemDoc) (j : ℕ) (n : String),
    (∃ e, acc[j]? = some e ∧ hasAttr e.attrs n) →
    ∃ e, (List.foldl fillStep acc l)[j]? = some e ∧ hasAttr e.attrs n := by
  induction l with
  | nil => intro acc j n h; exact h
  | cons e1 l' ih =>
    intro acc j n h
    refine ih (fillStep acc e1) j n ?_
    obtain ⟨e, he, hn⟩ := h
    unfold fillStep
    cases hf : findById acc (coerceIdArg (getAttr e1.attrs "id")) with
    | none => exact ⟨e, he, hn⟩
    | some j' =>
      by_cases hj : j = j'
      · subst hj
        rw [modifyAt_get_self acc j _, he]
        exact ⟨_, rfl, hasAttr_fillAttrs_mono e1.attrs e.attrs n hn⟩
      · rw [modifyAt_get_ne acc j' j _ hj]
        exact ⟨e, he, hn⟩

theorem foldl_fillStep_provenance (d2 : ElemDoc) (l : List Elem) : ∀ (acc : ElemDoc),
    SameIds acc d2 → ∀ (j : ℕ) (n v : String) (e' : Elem),
    (List.foldl fillStep acc l)[j]? = some e' → getAttr e'.attrs n = some v →
    (∃ e₀, acc[j]? = some e₀ ∧ getAttr e₀.attrs n = some v)
    ∨ ∃ e1 ∈ l, getAttr e1.attrs n = some v ∧
        findById d2 (coerceIdArg (getAttr e1.attrs "id")) = some j := by
  induction l with
  | nil => intro acc _ j n v e' h hv; exact Or.inl ⟨e', h, hv⟩
  | cons e1 l' ih =>
    intro acc hsame j n v e' h hv
    have hsame' : SameIds (fillStep acc e1) d2 :=
      sameIds_trans (fillStep_sameIds acc e1) hsame
    rcases ih (fillStep acc e1) hsame' j n v e' h hv with ⟨e₀, he₀, hv₀⟩ | ⟨ex, hex, hx⟩
    · revert he₀
      unfold fillStep
      cases hf : findById acc (coerceIdArg (getAttr e1.attrs "id")) with
      | none => exact fun he₀ => Or.inl ⟨e₀, he₀, hv₀⟩
      | some j' =>
        intro he₀
        by_cases hj : j = j'
        · subst hj
          rw [modifyAt_get_self acc j _] at he₀
          obtain ⟨a₀, ha₀, hmap⟩ := Option.map_eq_some'.mp he₀
          rw [← hmap] at hv₀
          rcases getAttr_fillAttrs_cases e1.attrs a₀.attrs n v hv₀ with hd | ⟨_, hsrc⟩
          · exact Or.inl ⟨a₀, ha₀, hd⟩
          · refine Or.inr ⟨e1, List.mem_cons_self e1 l', hsrc, ?_⟩
            rw [← findById_congr hsame]
            exact hf
        · rw [modifyAt_get_ne acc j' j _ hj] at he₀
          exact Or.inl ⟨e₀, he₀, hv₀⟩
    · exact Or.inr ⟨ex, List.mem_cons_of_mem e1 hex, hx⟩

/-- **C9 (amended).** `compareAndFillSvgDom` only adds missing attributes
to its second argument: `svgDom1` is returned unmodified; the result has
the same length and pairwise the same `id` attributes as `svgDom2`; every
attribute already present on an element of `svgDom2` keeps its original
value; an element of `svgDom2` that no element of `svgDom1` resolves to
via `getElementById` (under the `null`-string coercion of a missing id)
is unchanged; for every element of `svgDom1` that resolves to an element
of `svgDom2`, each of its attributes is present on that element of the
result; and every attribute value in the result is either the original
one or comes, with its value, from a resolving element of `svgDom1`. -/
theorem c9_compare_and_fill (d1 d2 : ElemDoc) :
    (compareAndFillSvgDom d1 d2).1 = d1
    ∧ SameIds (compareAndFillSvgDom d1 d2).2 d2
    ∧ List.Forall₂ KeepAttrs d2 (compareAndFillSvgDom d1 d2).2
    ∧ (∀ j : ℕ, (∀ e1 ∈ d1, findById d2 (coerceIdArg (getAttr e1.attrs "id")) ≠ some j) →
        ((compareAndFillSvgDom d1 d2).2)[j]? = d2[j]?)
    ∧ (∀ e1 ∈ d1, ∀ j : ℕ,
        findById d2 (coerceIdArg (getAttr e1.attrs "id")) = some j →
        ∀ n v : String, getAttr e1.attrs n = some v →
        ∃ e, ((compareAndFillSvgDom d1 d2).2)[j]? = some e ∧ hasAttr e.attrs n)
    ∧ (∀ (j : ℕ) (n v : String) (e' : Elem),
        ((compareAndFillSvgDom d1 d2).2)[j]? = some e' → getAttr e'.attrs n = some v →
        (∃ e₀, d2[j]? = some e₀ ∧ getAttr e₀.attrs n = some v)
        ∨ ∃ e1 ∈ d1, getAttr e1.attrs n = some v ∧
            findById d2 (coerceIdArg (getAttr e1.attrs "id")) = some j) := by
  refine ⟨rfl, foldl_fillStep_sameIds d1 d2 d2 (sameIds_refl d2), ?_, ?_, ?_, ?_⟩
  · exact foldl_fillStep_keeps d1 d2 d2
      (List.forall₂_same.mpr (fun _ _ => fun _ _ h => h))
  · intro j hne
    exact foldl_fillStep_untouched d2 d1 d2 (sameIds_refl d2) j hne rfl
  · intro e1 hmem j hfind n v hv
    obtain ⟨l₁, l₂, rfl⟩ := List.append_of_mem hmem
    show ∃ e, (List.foldl fillStep d2 (l₁ ++ e1 :: l₂))[j]? = some e ∧ hasAttr e.attrs n
    rw [List.foldl_append]
    have hsame₁ : SameIds (List.foldl fillStep d2 l₁) d2 :=
      foldl_fillStep_sameIds l₁ d2 d2 (sameIds_refl d2)
    simp only [List.foldl_cons]
    apply foldl_fillStep_presence
    have hfind₁ : findById (List.foldl fillStep d2 l₁)
        (coerceIdArg (getAttr e1.attrs "id")) = some j := by
      rw [findById_congr hsame₁]; exact hfind
    simp only [fillStep, hfind₁]
    obtain ⟨e₀, he₀, _⟩ := findById_get (List.foldl fillStep d2 l₁) _ j hfind₁
    rw [modifyAt_get_self _ j _, he₀]
    exact ⟨_, rfl, hasAttr_fillAttrs_of_src e1.attrs e₀.attrs n v hv⟩
  · intro j n v e' h hv
    rcases foldl_fillStep_provenance d2 d1 d2 (sameIds_refl d2) j n v e' h hv with
      ⟨e₀, he₀, hv₀⟩ | hr
    · exact Or.inl ⟨e₀, he₀, hv₀⟩
    · exact Or.inr hr

/-! ## `svgedit.js`: keyboard shortcuts (`toolButtons`, `Actions.setAll`)

`Actions.setAll` builds a `keyHandler` object from the `toolButtons`
array — splitting each key specification on `'/'`, later registrations
overwriting earlier ones — and installs a `keydown` listener that runs a
registered action only for events targetting `BODY`.  The JavaScript
string methods involved, `String.prototype.split('/')` and
`String.prototype.toLowerCase()`, are embedded as the structural
functions `jsSplitSlash` and `jsToLower` below (the key names involved
are ASCII, where `Char.toLower` agrees with `toLowerCase`). -/

/-- Helper for `jsSplitSlash`: accumulate the current chunk (reversed). -/
def jsSplitSlashAux : List Char → List Char → List String
  | [], acc => [String.mk acc.reverse]
  | c :: t, acc =>
    if c = '/' then String.mk acc.reverse :: jsSplitSlashAux t []
    else jsSplitSlashAux t (c :: acc)

/-- JavaScript `s.split('/')`. -/
def jsSplitSlash (s : String) : List String := jsSplitSlashAux s.data []

/-- JavaScript `s.toLowerCase()` (on the ASCII key names used here). -/
def jsToLower (s : String) : String := String.mk (s.data.map Char.toLower)

/-- The editor operation a `toolButtons` entry invokes. -/
inductive EditorFn where
  | rotateSelected (clockwise deg : ℕ)
  | selectPrev
  | selectNext
  | zoomImage (multiplier : ℕ) (half : Bool)
  | moveUpDownSelected (dir : String)
  | moveSelected (dx dy : ℤ)
  | cloneSelectedElements (dx dy : ℤ)
  | selectAllInCurrentLayer
  | clickUndo
  | clickRedo
  | cutSelected
  | copySelected
  | pasteInCenter
deriving DecidableEq

/-- A `toolButtons` entry's `key` field: a plain string, or an array
`[keyval, preventDefault]`. -/
inductive KeySpec where
  | plain (s : String)
  | withPd (s : String) (pd : Bool)

/-- `keyval` extraction in `setAll`: `opts.key` or `opts.key[0]`. -/
def keyvalOf : KeySpec → String
  | .plain s => s
  | .withPd s _ => s

/-- `pd` extraction in `setAll`: `false` unless `opts.key[1]` is given. -/
def pdOf : KeySpec → Bool
  | .plain _ => false
  | .withPd _ pd => pd

/-- One shortcut specification of the `toolButtons` array. -/
structure ToolButtonSpec where
  key : KeySpec
  fn : EditorFn

/-- `const modKey = (isMac() ? 'meta+' : 'ctrl+')`. -/
def modKey (isMac : Bool) : String := if isMac then "meta+" else "ctrl+"

/-- The `toolButtons` array of `svgedit.js` (the entries carrying `key`
specifications, in source order). -/
def toolButtons (isMac : Bool) : List ToolButtonSpec :=
  [ ⟨.plain "ctrl+left", .rotateSelected 0 1⟩,
    ⟨.plain "ctrl+right", .rotateSelected 1 1⟩,
    ⟨.plain "ctrl+shift+left", .rotateSelected 0 5⟩,
    ⟨.plain "ctrl+shift+right", .rotateSelected 1 5⟩,
    ⟨.plain "shift+O", .selectPrev⟩,
    ⟨.plain "shift+P", .selectNext⟩,
    ⟨.withPd (modKey isMac ++ "up") true, .zoomImage 2 false⟩,
    ⟨.withPd (modKey isMac ++ "down") true, .zoomImage 0 true⟩,
    ⟨.withPd (modKey isMac ++ "]") true, .moveUpDownSelected "Up"⟩,
    ⟨.withPd (modKey isMac ++ "[") true, .moveUpDownSelected "Down"⟩,
    ⟨.withPd "up" true, .moveSelected 0 (-1)⟩,
    ⟨.withPd "down" true, .moveSelected 0 1⟩,
    ⟨.withPd "left" true, .moveSelected (-1) 0⟩,
    ⟨.withPd "right" true, .moveSelected 1 0⟩,
    ⟨.plain "shift+up", .moveSelected 0 (-10)⟩,
    ⟨.plain "shift+down", .moveSelected 0 10⟩,
    ⟨.plain "shift+left", .moveSelected (-10) 0⟩,
    ⟨.plain "shift+right", .moveSelected 10 0⟩,
    ⟨.withPd "alt+up" true, .cloneSelectedElements 0 (-1)⟩,
    ⟨.withPd "alt+down" true, .cloneSelectedElements 0 1⟩,
    ⟨.withPd "alt+left" true, .cloneSelectedElements (-1) 0⟩,
    ⟨.withPd "alt+right" true, .cloneSelectedElements 1 0⟩,
    ⟨.withPd "alt+shift+up" true, .cloneSelectedElements 0 (-10)⟩,
    ⟨.withPd "alt+shift+down" true, .cloneSelectedElements 0 10⟩,
    ⟨.withPd "alt+shift+left" true, .cloneSelectedElements (-10) 0⟩,
    ⟨.withPd "alt+shift+right" true, .cloneSelectedElements 10 0⟩,
    ⟨.plain "a", .selectAllInCurrentLayer⟩,
    ⟨.plain (modKey isMac ++ "a"), .selectAllInCurrentLayer⟩,
    ⟨.plain (modKey isMac ++ "z"), .clickUndo⟩,
    ⟨.plain (modKey isMac ++ "shift+z"), .clickRedo⟩,
    ⟨.plain (modKey isMac ++ "y"), .clickRedo⟩,
    ⟨.plain (modKey isMac ++ "x"), .cutSelected⟩,
    ⟨.plain (modKey isMac ++ "c"), .copySelected⟩,
    ⟨.plain (modKey isMac ++ "v"), .pasteInCenter⟩ ]

/-- A `keyHandler` entry `{fn, pd}`. -/
structure KeyEntry where
  fn : EditorFn
  pd : Bool
deriving DecidableEq

/-- One `toolButtons.forEach` iteration of `setAll`:
`keyval.split('/').forEach((key) => { keyHandler[key] = {fn, pd} })`.
Assignments are recorded in order; `lookupKey` below gives the last one
(JavaScript object assignment overwrites). -/
def registerButton (kh : List (String × KeyEntry)) (tb : ToolButtonSpec) :
    List (String × KeyEntry) :=
  kh ++ (jsSplitSlash (keyvalOf tb.key)).map (fun k => (k, ⟨tb.fn, pdOf tb.key⟩))

/-- The `keyHandler` object built by `setAll`. -/
def buildKeyHandler (tbs : List ToolButtonSpec) : List (String × KeyEntry) :=
  tbs.foldl registerButton []

/-- `keyHandler[key]`: the last assignment wins. -/
def lookupKey : List (String × KeyEntry) → String → Option KeyEntry
  | [], _ => none
  | (k', e) :: t, k =>
    match lookupKey t k with
    | some e' => some e'
    | none => if k' = k then some e else none

/-- The fields of a `keydown` event the dispatcher reads. -/
structure KeyEvent where
  targetNodeName : String
  metaKey : Bool
  ctrlKey : Bool
  key : String

/-- An observable effect of the `keydown` listener. -/
inductive KeyEffect where
  | invoke (fn : EditorFn)
  | preventDefault
deriving DecidableEq

/-- The normalized lookup key:
```${(e.metaKey) ? 'meta+' : ''}${(e.ctrlKey) ? 'ctrl+' : ''}${e.key.toLowerCase()}```. -/
def shortcutKeyOf (e : KeyEvent) : String :=
  (if e.metaKey then "meta+" else "") ++ (if e.ctrlKey then "ctrl+" else "")
    ++ jsToLower e.key

/-- The `keydown` listener installed by `Actions.setAll`, as the list of
effects it performs on an event. -/
def keydownHandler (kh : List (String × KeyEntry)) (e : KeyEvent) : List KeyEffect :=
  if e.targetNodeName ≠ "BODY" then []
  else
    match lookupKey kh (shortcutKeyOf e) with
    | none => []
    | some entry =>
      .invoke entry.fn :: (if entry.pd then [.preventDefault] else [])

theorem lookupKey_map_val (v : KeyEntry) (l : List String) : ∀ (k : String) (e : KeyEntry),
    lookupKey (l.map (fun k' => (k', v))) k = some e → e = v := by
  induction l with
  | nil => intro k e h; simp [lookupKey] at h
  | cons a t ih =>
    intro k e h
    simp only [List.map_cons, lookupKey] at h
    cases hm : lookupKey (t.map (fun k' => (k', v))) k with
    | some e' =>
      rw [hm] at h
      injection h with h
      exact h ▸ ih k e' hm
    | none =>
      rw [hm] at h
      by_cases ha : a = k
      · rw [if_pos ha] at h
        injection h with h
        exact h.symm
      · rw [if_neg ha] at h
        exact Option.noConfusion h

theorem lookupKey_map_const (v : KeyEntry) (l : List String) : ∀ k : String, k ∈ l →
    lookupKey (l.map (fun k' => (k', v))) k = some v := by
  induction l with
  | nil => intro k h; simp at h
  | cons a t ih =>
    intro k h
    simp only [List.map_cons, lookupKey]
    cases hm : lookupKey (t.map (fun k' => (k', v))) k with
    | some e' =>
      rw [lookupKey_map_val v t k e' hm]
    | none =>
      rcases List.mem_cons.mp h with rfl | hk
      · simp
      · rw [ih k hk] at hm
        exact Option.noConfusion hm

/-- **C3.** The keydown dispatcher installed by `Actions.setAll` runs a
shortcut action only when the event target's nodeName is `BODY`; the
lookup key concatenates `meta+` (when `metaKey`), `ctrl+` (when
`ctrlKey`) and the lowercased event key; when an entry is registered for
that key its function is invoked, followed by `preventDefault` exactly
when the entry's prevent-default flag is set; without an entry the event
is left untouched; and registration splits each key specification on `/`
so every alternative maps to the same function. -/
theorem c3_keydown_dispatcher (kh : List (String × KeyEntry)) (e : KeyEvent)
    (tb : ToolButtonSpec) :
    (e.targetNodeName ≠ "BODY" → keydownHandler kh e = [])
    ∧ (e.targetNodeName = "BODY" → lookupKey kh (shortcutKeyOf e) = none →
        keydownHandler kh e = [])
    ∧ (∀ entry : KeyEntry, e.targetNodeName = "BODY" →
        lookupKey kh (shortcutKeyOf e) = some entry →
        keydownHandler kh e =
          KeyEffect.invoke entry.fn ::
            (if entry.pd then [KeyEffect.preventDefault] else []))
    ∧ (∀ k ∈ jsSplitSlash (keyvalOf tb.key),
        lookupKey (registerButton [] tb) k = some ⟨tb.fn, pdOf tb.key⟩) := by
  refine ⟨?_, ?_, ?_, ?_⟩
  · intro h
    simp [keydownHandler, h]
  · intro h hl
    simp [keydownHandler, h, hl]
  · intro entry h hl
    simp [keydownHandler, h, hl]
  · intro k hk
    show lookupKey ([] ++ (jsSplitSlash (keyvalOf tb.key)).map _) k = _
    rw [List.nil_append]
    exact lookupKey_map_const ⟨tb.fn, pdOf tb.key⟩ (jsSplitSlash (keyvalOf tb.key)) k hk

/-- Witness for `c3_keydown_dispatcher`: with the real `toolButtons`
table (non-Mac), a `ctrl+Z` keydown on `BODY` invokes `clickUndo` and
does not prevent default. -/
theorem c3_keydown_dispatcher_witness :
    keydownHandler (buildKeyHandler (toolButtons false))
      ⟨"BODY", false, true, "Z"⟩ = [KeyEffect.invoke EditorFn.clickUndo] := by
  have h := (c3_keydown_dispatcher (buildKeyHandler (toolButtons false))
      ⟨"BODY", false, true, "Z"⟩ ⟨.plain "x", .cutSelected⟩).2.2.1
      ⟨.clickUndo, false⟩ rfl (by decide)
  simpa using h

/-! ## `svgedit.js`: `clickUndo` / `clickRedo` (C1)

`clickUndo` and `clickRedo` guard on the respective undo-manager stack
size; the undo manager itself lives in the `svgcanvas` package, so the
handlers are embedded as the trace of undo-manager/panel calls they
make.  An empty trace leaves any document state unchanged under any
interpretation of the commands. -/

/-- A call the undo/redo handlers can make. -/
inductive UndoCmd where
  | undo
  | redo
  | populateLayers
deriving DecidableEq

/-- `clickUndo`: `if (undoMgr.getUndoStackSize() > 0) { undoMgr.undo();
layersPanel.populateLayers(); }`, as its call trace. -/
def clickUndo (undoStackSize : ℕ) : List UndoCmd :=
  if undoStackSize > 0 then [.undo, .populateLayers] else []

/-- `clickRedo`: `if (undoMgr.getRedoStackSize() > 0) { undoMgr.redo();
layersPanel.populateLayers(); }`, as its call trace. -/
def clickRedo (redoStackSize : ℕ) : List UndoCmd :=
  if redoStackSize > 0 then [.redo, .populateLayers] else []

/-- **C1.** `clickUndo` invokes `undoMgr.undo()` (and repopulates the
layers panel) iff the undo stack is nonempty, `clickRedo` likewise for
the redo stack; on an empty stack the call performs nothing, so the
document state is unchanged under any interpretation of the commands;
and in the shortcut table `mod+z` maps to `clickUndo` while both
`mod+shift+z` and `mod+y` map to `clickRedo`, none preventing default. -/
theorem c1_guarded_undo_redo (isMac : Bool) (u r : ℕ) :
    (UndoCmd.undo ∈ clickUndo u ↔ 0 < u)
    ∧ (0 < u → clickUndo u = [UndoCmd.undo, UndoCmd.populateLayers])
    ∧ (u = 0 → clickUndo u = [])
    ∧ (UndoCmd.redo ∈ clickRedo r ↔ 0 < r)
    ∧ (0 < r → clickRedo r = [UndoCmd.redo, UndoCmd.populateLayers])
    ∧ (r = 0 → clickRedo r = [])
    ∧ (∀ (α : Type) (applyCmd : UndoCmd → α → α) (docState : α),
        (clickUndo 0).foldl (fun s c => applyCmd c s) docState = docState)
    ∧ (∀ (α : Type) (applyCmd : UndoCmd → α → α) (docState : α),
        (clickRedo 0).foldl (fun s c => applyCmd c s) docState = docState)
    ∧ lookupKey (buildKeyHandler (toolButtons isMac)) (modKey isMac ++ "z") =
        some ⟨EditorFn.clickUndo, false⟩
    ∧ lookupKey (buildKeyHandler (toolButtons isMac)) (modKey isMac ++ "shift+z") =
        some ⟨EditorFn.clickRedo, false⟩
    ∧ lookupKey (buildKeyHandler (toolButtons isMac)) (modKey isMac ++ "y") =
        some ⟨EditorFn.clickRedo, false⟩ := by
  refine ⟨?_, ?_, ?_, ?_, ?_, ?_, ?_, ?_, ?_, ?_, ?_⟩
  · by_cases h : 0 < u <;> simp [clickUndo, h]
  · intro h; simp [clickUndo, h]
  · intro h; simp [clickUndo, h]
  · by_cases h : 0 < r <;> simp [clickRedo, h]
  · intro h; simp [clickRedo, h]
  · intro h; simp [clickRedo, h]
  · intro α applyCmd docState; simp [clickUndo]
  · intro α applyCmd docState; simp [clickRedo]
  · cases isMac <;> decide
  · cases isMac <;> decide
  · cases isMac <;> decide

/-- Witness for `c1_guarded_undo_redo`: an empty undo stack produces no
calls; a nonempty redo stack redoes and repopulates the layers panel. -/
theorem c1_guarded_undo_redo_witness :
    clickUndo 0 = [] ∧ clickRedo 3 = [UndoCmd.redo, UndoCmd.populateLayers] :=
  ⟨(c1_guarded_undo_redo false 0 3).2.2.1 rfl,
   (c1_guarded_undo_redo false 0 3).2.2.2.2.1 (by decide)⟩

/-! ## `svgedit.js`: ruler intervals (C2)

`updateRulers` computes the major tick interval `multi` from the
`rIntervals` array built by `for (let i = 0.1; i < 1e5; i *= 10)
{ push(i); push(2*i); push(5*i); }` and from `rawM = 50 / (unit * zoom)`.
The JavaScript numbers are embedded as rationals with the decimal values
the source writes (for these values every product the loop performs is
exact in binary64 as well).  The unbounded `for` loop is embedded with a
fuel argument larger than the seven iterations it performs. -/

/-- The `rIntervals`-building loop body, with fuel. -/
def rIntervalsLoop : ℚ → ℕ → List ℚ
  | _, 0 => []
  | i, fuel + 1 =>
    if i < 100000 then i :: 2 * i :: 5 * i :: rIntervalsLoop (i * 10) fuel else []

/-- The `rIntervals` array (`// Make [1,2,5] array`). -/
def rIntervals : List ℚ := rIntervalsLoop (1 / 10) 10

/-- The `multi`-selection loop of `updateRulers`: `multi = num` each
iteration, breaking as soon as `rawM <= num`; `multi` starts at `1`. -/
def multiLoop : List ℚ → ℚ → ℚ → ℚ
  | [], _, multi => multi
  | num :: t, rawM, _ => if rawM ≤ num then num else multiLoop t rawM num

/-- The major interval `multi` computed by `updateRulers` at a given base
unit and zoom (`rawM = 50 / (unit * zoom)`). -/
def updateRulersMulti (unit zoom : ℚ) : ℚ :=
  multiLoop rIntervals (50 / (unit * zoom)) 1

/-- `bigInt = multi * uMulti`: the pixel distance between major ticks. -/
def updateRulersBigInt (unit zoom : ℚ) : ℚ :=
  updateRulersMulti unit zoom * (unit * zoom)

theorem multiLoop_mem (l : List ℚ) : ∀ rawM m0 : ℚ, l ≠ [] →
    multiLoop l rawM m0 ∈ l := by
  induction l with
  | nil => intro _ _ h; exact absurd rfl h
  | cons num t ih =>
    intro rawM m0 _
    simp only [multiLoop]
    by_cases h : rawM ≤ num
    · simp [h]
    · rw [if_neg h]
      cases t with
      | nil => simp [multiLoop]
      | cons a t' => exact List.mem_cons_of_mem num (ih rawM num (by simp))

theorem multiLoop_found (l : List ℚ) (hp : l.Pairwise (· < ·)) : ∀ rawM m0 : ℚ,
    (∃ x ∈ l, rawM ≤ x) →
    rawM ≤ multiLoop l rawM m0
    ∧ ∀ x ∈ l, rawM ≤ x → multiLoop l rawM m0 ≤ x := by
  induction l with
  | nil =>
    intro rawM m0 h
    simp at h
  | cons num t ih =>
    intro rawM m0 h
    simp only [multiLoop]
    by_cases hle : rawM ≤ num
    · rw [if_pos hle]
      refine ⟨hle, ?_⟩
      intro x hx hrx
      rcases List.mem_cons.mp hx with rfl | hx
      · exact le_refl x
      · exact le_of_lt ((List.pairwise_cons.mp hp).1 x hx)
    · rw [if_neg hle]
      have hex : ∃ x ∈ t, rawM ≤ x := by
        obtain ⟨x, hx, hrx⟩ := h
        rcases List.mem_cons.mp hx with rfl | hx
        · exact absurd hrx hle
        · exact ⟨x, hx, hrx⟩
      obtain ⟨h1, h2⟩ := ih (List.pairwise_cons.mp hp).2 rawM num hex
      refine ⟨h1, ?_⟩
      intro x hx hrx
      rcases List.mem_cons.mp hx with rfl | hx
      · exact absurd hrx hle
      · exact h2 x hx hrx

theorem multiLoop_all_lt (l : List ℚ) : ∀ rawM m0 : ℚ, (∀ x ∈ l, x < rawM) →
    multiLoop l rawM m0 = l.getLast?.getD m0 := by
  induction l with
  | nil => intro rawM m0 _; rfl
  | cons num t ih =>
    intro rawM m0 h
    have hnum : num < rawM := h num (List.mem_cons_self num t)
    simp only [multiLoop]
    rw [if_neg (not_le.mpr hnum),
      ih rawM num (fun x hx => h x (List.mem_cons_of_mem num hx))]
    cases t with
    | nil => simp
    | cons a t' =>
      obtain ⟨x, hx⟩ := Option.isSome_iff_exists.mp
        (List.getLast?_isSome.mpr (List.cons_ne_nil a t'))
      rw [List.getLast?_cons_cons, hx]
      rfl

/-- **C2.** `rIntervals` is the ascending 1-2-5 sequence from `0.1` to
`50000`; for positive base unit and zoom, `updateRulers` picks as `multi`
the smallest element of that sequence that is at least
`50 / (unit * zoom)`, falling back to the last element `50000` when every
element is below the bound; and the pixel distance between major ticks is
`multi * unit * zoom`. -/
theorem c2_ruler_intervals (unit zoom : ℚ) (hu : 0 < unit) (hz : 0 < zoom) :
    rIntervals = [1/10, 1/5, 1/2, 1, 2, 5, 10, 20, 50, 100, 200, 500,
      1000, 2000, 5000, 10000, 20000, 50000]
    ∧ rIntervals.Pairwise (· < ·)
    ∧ updateRulersMulti unit zoom ∈ rIntervals
    ∧ ((∃ x ∈ rIntervals, 50 / (unit * zoom) ≤ x) →
        50 / (unit * zoom) ≤ updateRulersMulti unit zoom
        ∧ ∀ x ∈ rIntervals, 50 / (unit * zoom) ≤ x →
            updateRulersMulti unit zoom ≤ x)
    ∧ ((∀ x ∈ rIntervals, x < 50 / (unit * zoom)) →
        updateRulersMulti unit zoom = 50000)
    ∧ updateRulersBigInt unit zoom = updateRulersMulti unit zoom * (unit * zoom) := by
  have hlist : rIntervals = [1/10, 1/5, 1/2, 1, 2, 5, 10, 20, 50, 100, 200, 500,
      1000, 2000, 5000, 10000, 20000, 50000] := by
    norm_num [rIntervals, rIntervalsLoop]
  have hpair : rIntervals.Pairwise (· < ·) := by
    rw [hlist]
    norm_num [List.pairwise_cons]
  refine ⟨hlist, hpair, ?_, multiLoop_found rIntervals hpair _ 1, ?_, rfl⟩
  · exact multiLoop_mem rIntervals _ 1 (by rw [hlist]; simp)
  · intro h
    show multiLoop rIntervals (50 / (unit * zoom)) 1 = 50000
    rw [multiLoop_all_lt rIntervals _ 1 h, hlist]
    simp

/-- Witness for `c2_ruler_intervals` at `unit = 1`, `zoom = 1`
(`rawM = 50`, which the sequence reaches): the selected interval is at
least `50` and the tick distance is `multi * unit * zoom`. -/
theorem c2_ruler_intervals_witness :
    50 / ((1 : ℚ) * 1) ≤ updateRulersMulti 1 1
    ∧ updateRulersBigInt 1 1 = updateRulersMulti 1 1 * (1 * 1) := by
  obtain ⟨h1, _, _, h4, _, h6⟩ := c2_ruler_intervals 1 1 one_pos one_pos
  refine ⟨(h4 ⟨50, ?_, ?_⟩).1, h6⟩
  · rw [h1]; norm_num
  · norm_num

/-- Concrete `svgDom1` for the C9 counterexample: its only element has
no `id` attribute at all. -/
def c9CexDom1 : ElemDoc := [⟨"rect", [("width", "5")]⟩]

/-- Concrete `svgDom2` for the C9 counterexample: its only element's id
is the literal string `"null"`. -/
def c9CexDom2 : ElemDoc := [⟨"circle", [("id", "null")]⟩]

/-- **C9, counterexample to the claim as stated.**  The `rect` of
`svgDom1` has no `id` attribute, so no id of `svgDom1` matches the
`circle` of `svgDom2`; the claim then says the `circle` is unchanged —
but the code passes `getAttribute('id') = null` to `getElementById`,
which coerces it to `"null"`, matches the `circle`, and copies `width`
onto it. -/
theorem c9_compare_and_fill_counterexample :
    getAttr [("width", "5")] "id" = none
    ∧ (compareAndFillSvgDom c9CexDom1 c9CexDom2).2 ≠ c9CexDom2
    ∧ (compareAndFillSvgDom c9CexDom1 c9CexDom2).2 =
        [⟨"circle", [("id", "null"), ("width", "5")]⟩] := by
  refine ⟨rfl, ?_, ?_⟩ <;> decide

/-- Witness for `c9_compare_and_fill`: on concrete documents, the
matching element of `svgDom2` receives the missing `fill` attribute. -/
theorem c9_compare_and_fill_witness :
    ∃ e, ((compareAndFillSvgDom [⟨"rect", [("id", "a"), ("fill", "red")]⟩]
        [⟨"rect", [("id", "a")]⟩]).2)[0]? = some e ∧ hasAttr e.attrs "fill" :=
  (c9_compare_and_fill [⟨"rect", [("id", "a"), ("fill", "red")]⟩]
      [⟨"rect", [("id", "a")]⟩]).2.2.2.2.1
    ⟨"rect", [("id", "a"), ("fill", "red")]⟩ (by decide) 0 (by decide)
    "fill" "red" (by decide)

/-! ## `svgedit.js`: the `extAdded` handler (C4)

`extAdded(win, ext)` returns immediately on a falsy extension; otherwise
it optionally awaits `ext.langReady`, builds the extension's context
tools, wires `ext.events`, and ends with `runCallback()`, whose
`cbCalled` flag makes a second invocation a no-op.  The handler is
embedded as the trace of extension hooks and UI actions it performs. -/

/-- The fields of an extension object that `extAdded` inspects: which
hooks are present (truthy) and the `type`s of its `context_tools`. -/
structure ExtensionHooks where
  hasLangReady : Bool
  hasCallback : Bool
  contextToolTypes : List String
  hasEvents : Bool

/-- One step `extAdded` performs, in order. -/
inductive ExtEvent where
  | langReady
  | addContextTool (ty : String)
  | bindEventsClick
  | callback
deriving DecidableEq

/-- `runCallback`: invoke `ext.callback` unless absent or `cbCalled`;
returns the new `cbCalled` flag and the trace. -/
def runCallback (hasCallback cbCalled : Bool) : Bool × List ExtEvent :=
  if hasCallback && !cbCalled then (true, [.callback]) else (cbCalled, [])

/-- `extAdded(win, ext)` as its trace: `none` embeds a falsy `ext`. -/
def extAdded (ext : Option ExtensionHooks) (langChanged : Bool) : List ExtEvent :=
  match ext with
  | none => []
  | some x =>
    (if x.hasLangReady && langChanged then [ExtEvent.langReady] else [])
      ++ x.contextToolTypes.map ExtEvent.addContextTool
      ++ (if x.hasEvents then [ExtEvent.bindEventsClick] else [])
      ++ (runCallback x.hasCallback false).2

/-- **C4.** A falsy extension makes `extAdded` do nothing; otherwise the
extension's callback runs at most once (and a second `runCallback` after
one that ran the callback is a no-op), and `langReady` is awaited before
anything else exactly when the extension defines `langReady` and
`editor.langChanged` is true. -/
theorem c4_ext_added (x : ExtensionHooks) (lc : Bool) :
    extAdded none lc = []
    ∧ (extAdded (some x) lc).count ExtEvent.callback ≤ 1
    ∧ (∀ b : Bool, (runCallback x.hasCallback b).2 ≠ [] →
        (runCallback x.hasCallback (runCallback x.hasCallback b).1).2 = [])
    ∧ (ExtEvent.langReady ∈ extAdded (some x) lc ↔ (x.hasLangReady && lc) = true)
    ∧ ((x.hasLangReady && lc) = true ↔
        (extAdded (some x) lc).head? = some ExtEvent.langReady) := by
  have hmem : ExtEvent.langReady ∈ extAdded (some x) lc ↔ (x.hasLangReady && lc) = true := by
    simp only [extAdded, List.mem_append, List.mem_map, runCallback]
    constructor
    · intro h
      rcases h with ((h | h) | h) | h
      · by_cases hc : (x.hasLangReady && lc) = true
        · exact hc
        · simp [hc] at h
      · obtain ⟨ty, _, hty⟩ := h
        exact absurd hty (by simp)
      · by_cases he : x.hasEvents <;> simp [he] at h
      · by_cases hcb : x.hasCallback = true <;> simp [hcb] at h
    · intro h
      exact Or.inl (Or.inl (by simp [h]))
  refine ⟨rfl, ?_, ?_, hmem, ?_⟩
  · have hmap : (x.contextToolTypes.map ExtEvent.addContextTool).count ExtEvent.callback = 0 :=
      List.count_eq_zero.mpr (by simp)
    simp only [extAdded, List.count_append, hmap, runCallback]
    split_ifs <;> simp [List.count_cons, List.count_nil]
  · intro b h
    simp only [runCallback] at h ⊢
    by_cases hb : (x.hasCallback && !b) = true
    · rw [if_pos hb] at h ⊢
      simp only at h ⊢
      simp
    · rw [if_neg hb] at h
      simp at h
  · constructor
    · intro h
      simp [extAdded, h]
    · intro h
      by_cases hc : (x.hasLangReady && lc) = true
      · exact hc
      · exfalso
        have hm : ExtEvent.langReady ∈ extAdded (some x) lc := by
          cases hl : extAdded (some x) lc with
          | nil => rw [hl] at h; exact Option.noConfusion h
          | cons a t =>
            rw [hl] at h
            injection h with h
            rw [← h]
            exact List.mem_cons_self a t
        exact hc (hmem.mp hm)

/-- Witness for `c4_ext_added`: once the callback has run, a second
`runCallback` performs nothing. -/
theorem c4_ext_added_witness :
    (runCallback true (runCallback true false).1).2 = [] :=
  (c4_ext_added ⟨true, true, [], false⟩ true).2.2.1 false (by decide)

/-! ## `src/unnamed/part_001`: the panning extension (C5) -/

/-- The object returned by the panning extension's `mouseDown`. -/
structure PanDownResult where
  started : Bool
deriving DecidableEq

/-- The object returned by the panning extension's `mouseUp` (`element:
null` is `none`). -/
structure PanUpResult where
  keep : Bool
  element : Option String
deriving DecidableEq

/-- `mouseDown()` of the panning extension: the returned value and the
panning flag after the call (`svgEditor.setPanning(true)` when the mode
is `ext-panning`, otherwise no state change and `undefined`). -/
def extPanningMouseDown (mode : String) (panning : Bool) :
    Option PanDownResult × Bool :=
  if mode = "ext-panning" then (some ⟨true⟩, true) else (none, panning)

/-- `mouseUp()` of the panning extension. -/
def extPanningMouseUp (mode : String) (panning : Bool) :
    Option PanUpResult × Bool :=
  if mode = "ext-panning" then (some ⟨false, none⟩, false) else (none, panning)

/-- **C5.** The panning extension's handlers are mode-conditional:
`mouseDown` sets panning and returns `{started: true}` iff the canvas
mode is `ext-panning`, `mouseUp` clears panning and returns
`{keep: false, element: null}` iff the mode is `ext-panning`; in every
other mode both return `undefined` and leave the panning flag alone. -/
theorem c5_panning_handlers (mode : String) (panning : Bool) :
    ((extPanningMouseDown mode panning).1 = some ⟨true⟩ ↔ mode = "ext-panning")
    ∧ (mode = "ext-panning" → (extPanningMouseDown mode panning).2 = true)
    ∧ (mode ≠ "ext-panning" → extPanningMouseDown mode panning = (none, panning))
    ∧ ((extPanningMouseUp mode panning).1 = some ⟨false, none⟩ ↔ mode = "ext-panning")
    ∧ (mode = "ext-panning" → (extPanningMouseUp mode panning).2 = false)
    ∧ (mode ≠ "ext-panning" → extPanningMouseUp mode panning = (none, panning)) := by
  by_cases h : mode = "ext-panning" <;>
    simp [extPanningMouseDown, extPanningMouseUp, h]

/-- Witness for `c5_panning_handlers`: in `select` mode, `mouseDown`
returns `undefined` and leaves the panning flag alone. -/
theorem c5_panning_handlers_witness :
    extPanningMouseDown "select" true = (none, true) :=
  (c5_panning_handlers "select" true).2.2.1 (by decide)

/-! ## `src/unnamed/part_000`: `customInitLayer` (C6)

`customInitLayer` counts `initSvgDom.querySelectorAll('.layer')`; when
the opened document has no layer it creates `'图层 1'` and refreshes the
context panel and the layers list, otherwise it does nothing. -/

/-- A call `customInitLayer` can make. -/
inductive LayerCmd where
  | createLayer (layerName : String)
  | updateContextPanel
  | populateLayers
deriving DecidableEq

/-- `customInitLayer`, as its call trace, given the number of `.layer`
elements of `initSvgDom`. -/
def customInitLayer (layerCount : ℕ) : List LayerCmd :=
  if layerCount = 0 then
    [.createLayer "图层 1", .updateContextPanel, .populateLayers]
  else []

/-- **C6.** `customInitLayer` creates the default layer `'图层 1'` and
refreshes the context panel and layers list exactly when the opened
document contains no `.layer` element; otherwise it neither creates a
layer nor refreshes the panels. -/
theorem c6_custom_init_layer (layerCount : ℕ) :
    (layerCount = 0 → customInitLayer layerCount =
      [LayerCmd.createLayer "图层 1", LayerCmd.updateContextPanel,
        LayerCmd.populateLayers])
    ∧ (0 < layerCount → customInitLayer layerCount = []) := by
  constructor
  · intro h; simp [customInitLayer, h]
  · intro h; simp [customInitLayer, Nat.pos_iff_ne_zero.mp h]

/-- Witness for `c6_custom_init_layer` at zero and one layers. -/
theorem c6_custom_init_layer_witness :
    customInitLayer 0 =
      [LayerCmd.createLayer "图层 1", LayerCmd.updateContextPanel,
        LayerCmd.populateLayers]
    ∧ customInitLayer 1 = [] :=
  ⟨(c6_custom_init_layer 0).1 rfl, (c6_custom_init_layer 1).2 (by decide)⟩

/-! ## `svgedit.js`: `updateLeftPanel` and the tool click handlers (C7)

`updateLeftPanel(button)` starts with `if (button.disabled) return
false`.  Every call site in this repository passes a *string* id
(`'tool_select'`, `'tool_text'`, `'tool_path'`, `ext.events.id`); the
`.disabled` property of a string is `undefined`, which is falsy, so for
these calls the guard never fires: the function always clears the
pressed state of every `#tools_left` button, presses the button looked
up by `$id` (first element with that id), and returns `true`.  The
embedding below is of the function as called with a string id. -/

/-- A button of the `#tools_left` panel. -/
structure ToolButton where
  id : String
  disabled : Bool
  pressed : Bool
deriving DecidableEq

/-- `$qq('#tools_left *[pressed]').forEach((b) => { b.pressed = false })`. -/
def clearPressed (panel : List ToolButton) : List ToolButton :=
  panel.map fun b => { b with pressed := false }

/-- `$id(button).pressed = true`: press the first button with that id. -/
def pressById : List ToolButton → String → List ToolButton
  | [], _ => []
  | b :: t, bid =>
    if b.id = bid then { b with pressed := true } :: t else b :: pressById t bid

/-- `updateLeftPanel(button)` called with a string id: the panel after
the call and the returned value.  `button.disabled` is `undefined` on a
string, hence falsy, so the early `return false` is never taken. -/
def updateLeftPanel (panel : List ToolButton) (button : String) :
    List ToolButton × Bool :=
  (pressById (clearPressed panel) button, true)

/-- `clickSelect`: `if (updateLeftPanel('tool_select'))
{ svgCanvas.setMode('select') }`; returns the panel and the mode. -/
def clickSelect (panel : List ToolButton) (mode : String) :
    List ToolButton × String :=
  let p := updateLeftPanel panel "tool_select"
  if p.2 then (p.1, "select") else (p.1, mode)

/-- `clickText`. -/
def clickText (panel : List ToolButton) (mode : String) :
    List ToolButton × String :=
  let p := updateLeftPanel panel "tool_text"
  if p.2 then (p.1, "text") else (p.1, mode)

/-- `clickPath`. -/
def clickPath (panel : List ToolButton) (mode : String) :
    List ToolButton × String :=
  let p := updateLeftPanel panel "tool_path"
  if p.2 then (p.1, "path") else (p.1, mode)

/-- The panning extension's click handler:
`if (this.leftPanel.updateLeftPanel('ext-panning'))
{ svgCanvas.setMode('ext-panning') }` — the guard's value comes from the
`LeftPanel` module, which is not among the sources. -/
def extPanningClick (guardResult : Bool) (mode : String) : String :=
  if guardResult then "ext-panning" else mode

theorem pressById_pressed_iff (l : List ToolButton) : ∀ bid : String,
    (∀ b ∈ l, b.pressed = false) → bid ∈ l.map ToolButton.id →
    (l.map ToolButton.id).Nodup →
    ∀ b ∈ pressById l bid, (b.pressed = true ↔ b.id = bid) := by
  induction l with
  | nil => intro bid _ hmem _; simp at hmem
  | cons hd t ih =>
    intro bid hfalse hmem hnd b hb
    have hnd' : (hd.id :: t.map ToolButton.id).Nodup := by simpa using hnd
    simp only [pressById] at hb
    by_cases hid : hd.id = bid
    · rw [if_pos hid] at hb
      rcases List.mem_cons.mp hb with rfl | hb
      · simp [hid]
      · have hbf : b.pressed = false := hfalse b (List.mem_cons_of_mem hd hb)
        have hbid : b.id ≠ bid := by
          intro hc
          have hin : bid ∈ t.map ToolButton.id := by
            rw [← hc]
            exact List.mem_map_of_mem ToolButton.id hb
          exact (List.nodup_cons.mp hnd').1 (hid ▸ hin)
        simp [hbf, hbid]
    · rw [if_neg hid] at hb
      rcases List.mem_cons.mp hb with rfl | hb
      · have hbf : b.pressed = false := hfalse b (List.mem_cons_self b t)
        simp [hbf, hid]
      · have hmem' : bid ∈ t.map ToolButton.id := by
          rcases List.mem_map.mp hmem with ⟨c, hc, hcid⟩
          rcases List.mem_cons.mp hc with rfl | hc
          · exact absurd hcid hid
          · exact List.mem_map.mpr ⟨c, hc, hcid⟩
        exact ih bid (fun c hc => hfalse c (List.mem_cons_of_mem hd hc)) hmem'
          (List.nodup_cons.mp hnd').2 b hb

/-- **C7 (amended).** `updateLeftPanel`, called with a string id as at
every call site of this repository, never takes the `disabled` early
return: it returns `true` unconditionally (even when the named button is
disabled) and establishes the invariant that, among the `#tools_left`
buttons, the given button is the only pressed one; consequently
`clickSelect`/`clickText`/`clickPath` always switch the canvas mode, and
the panning extension's click handler switches to `ext-panning` exactly
when its (externally supplied) guard is true. -/
theorem c7_update_left_panel (panel : List ToolButton) (bid mode : String)
    (hmem : bid ∈ panel.map ToolButton.id)
    (hnd : (panel.map ToolButton.id).Nodup) :
    (updateLeftPanel panel bid).2 = true
    ∧ (∀ b ∈ (updateLeftPanel panel bid).1, (b.pressed = true ↔ b.id = bid))
    ∧ (clickSelect panel mode).2 = "select"
    ∧ (clickText panel mode).2 = "text"
    ∧ (clickPath panel mode).2 = "path"
    ∧ extPanningClick true mode = "ext-panning"
    ∧ extPanningClick false mode = mode := by
  have hids : (clearPressed panel).map ToolButton.id = panel.map ToolButton.id := by
    simp [clearPressed, List.map_map, Function.comp]
  refine ⟨rfl, ?_, rfl, rfl, rfl, rfl, rfl⟩
  exact pressById_pressed_iff (clearPressed panel) bid
    (fun b hb => by
      simp only [clearPressed, List.mem_map] at hb
      obtain ⟨c, _, rfl⟩ := hb
      rfl)
    (hids ▸ hmem) (hids ▸ hnd)

/-- The concrete `#tools_left` panel of the C7 counterexample: a single,
disabled `tool_select` button. -/
def c7CexPanel : List ToolButton := [⟨"tool_select", true, false⟩]

/-- **C7, counterexample to the claim as stated.**  The `tool_select`
button is disabled, yet `updateLeftPanel` — called with the string id,
as at every call site — returns `true` and presses it, and `clickSelect`
still switches the mode to `select`: the `if (button.disabled)` guard
reads `.disabled` off the string argument, which is `undefined`. -/
theorem c7_update_left_panel_counterexample :
    (updateLeftPanel c7CexPanel "tool_select").2 = true
    ∧ (updateLeftPanel c7CexPanel "tool_select").1 =
        [⟨"tool_select", true, true⟩]
    ∧ (clickSelect c7CexPanel "path").2 = "select" := by
  refine ⟨rfl, ?_, ?_⟩ <;> decide

/-- Witness for `c7_update_left_panel` at a concrete two-button panel. -/
theorem c7_update_left_panel_witness :
    (updateLeftPanel [⟨"tool_select", false, false⟩, ⟨"tool_text", false, true⟩]
      "tool_select").2 = true :=
  (c7_update_left_panel
    [⟨"tool_select", false, false⟩, ⟨"tool_text", false, true⟩]
    "tool_select" "x" (by decide) (by decide)).1

/-! ## `svgedit.js`: `loadSvgString` (C10)

`loadSvgString(str, {noAlert})` computes
`success = svgCanvas.setSvgString(str) !== false`, returns on success,
otherwise alerts (unless `noAlert`) and throws. -/

/-- A JavaScript value as far as the `!== false` test distinguishes it. -/
inductive JsValue where
  | boolean (b : Bool)
  | other
deriving DecidableEq

/-- The observable outcome of a `loadSvgString` call: the alerts shown
(in order, before any throw) and whether it threw. -/
structure LoadResult where
  alerts : List String
  thrown : Bool
deriving DecidableEq

/-- `loadSvgString`, given the value returned by
`svgCanvas.setSvgString(str)` and the `noAlert` option. -/
def loadSvgString (setSvgStringResult : JsValue) (noAlert : Bool) : LoadResult :=
  if setSvgStringResult ≠ JsValue.boolean false then ⟨[], false⟩
  else ⟨if noAlert then [] else ["errorLoadingSVG"], true⟩

/-- **C10.** `loadSvgString` throws exactly when `setSvgString` returns
the value `false`; in that case it first shows the error-loading alert
unless `noAlert` is set; any other canvas result returns normally with
no alert and no throw. -/
theorem c10_load_svg_string (res : JsValue) (noAlert : Bool) :
    ((loadSvgString res noAlert).thrown = true ↔ res = JsValue.boolean false)
    ∧ (res = JsValue.boolean false → noAlert = false →
        (loadSvgString res noAlert).alerts = ["errorLoadingSVG"])
    ∧ (res = JsValue.boolean false → noAlert = true →
        (loadSvgString res noAlert).alerts = [])
    ∧ (res ≠ JsValue.boolean false → loadSvgString res noAlert = ⟨[], false⟩) := by
  by_cases h : res = JsValue.boolean false <;>
    cases noAlert <;> simp [loadSvgString, h]

/-- Witness for `c10_load_svg_string`: a literal `false` from the canvas
alerts and throws; any other value returns normally. -/
theorem c10_load_svg_string_witness :
    (loadSvgString (JsValue.boolean false) false).alerts = ["errorLoadingSVG"]
    ∧ loadSvgString JsValue.other true = ⟨[], false⟩ :=
  ⟨(c10_load_svg_string (JsValue.boolean false) false).2.1 rfl rfl,
   (c10_load_svg_string JsValue.other true).2.2.2 (by decide)⟩

end SvgEditSpec
